import Mathlib

/-!
Verification of the timeline-assembly and compositing-command logic of the
InstagramReelPoster render endpoint (scripts/beam_ffmpeg_v19.py, plus the
word-wrap helper of scripts/beam_ffmpeg_render.py), as a shallow embedding.

Durations (Python floats) are modelled as rationals.  Remote fetches are
modelled by an oracle `fetch : String → Bool` saying whether `download_file`
succeeds for a given URL; a successful download of `url` to destination `d`
is recorded as the path value `VisPath.remote url d`.
-/

/-- Decimal digit character, as produced by Python `str` on integers. -/
def digitChar (n : Nat) : Char := Char.ofNat (48 + n)

/-- Decimal representation of a natural number, accumulator form with
explicit fuel (the fuel is always sufficient at the call site). -/
def natReprAux : Nat → Nat → List Char → List Char
  | 0, _, acc => acc
  | fuel + 1, n, acc =>
    let acc2 := digitChar (n % 10) :: acc
    if n < 10 then acc2 else natReprAux fuel (n / 10) acc2

/-- Decimal representation of a natural number (Python `str(i)`). -/
def natRepr (n : Nat) : String := String.mk (natReprAux (n + 1) n [])

/-- The pattern `"turbo:"` scanned for in animated-clip URLs. -/
def turboPat : List Char := ['t', 'u', 'r', 'b', 'o', ':']

/-- Python `"turbo:" in url` on the character list of the URL. -/
def hasTurboChars : List Char → Bool
  | [] => false
  | c :: cs => turboPat.isPrefixOf (c :: cs) || hasTurboChars cs

/-- Python `url.replace("turbo:", "")`: remove occurrences left to right. -/
def stripTurboChars : List Char → List Char
  | [] => []
  | c :: cs =>
    if turboPat.isPrefixOf (c :: cs) then stripTurboChars (cs.drop 5)
    else c :: stripTurboChars cs
termination_by s => s.length
decreasing_by
  · simp [List.length_drop]
    omega
  · simp

/-- `"turbo:" in url` (beam_ffmpeg_v19.py line 116). -/
def hasTurbo (url : String) : Bool := hasTurboChars url.data

/-- `url.replace("turbo:", "")` (beam_ffmpeg_v19.py line 115). -/
def stripTurbo (url : String) : String := String.mk (stripTurboChars url.data)

/-- Kind of a visual input (`'image'` / `'video'` in the source dicts). -/
inductive VisKind
  | image
  | video
deriving DecidableEq, Repr

/-- Local file path of a visual, remembering where it came from:
`black` is the solid black fallback image created at job start,
`remote url dest` is a file downloaded from `url` to scratch name `dest`,
`slide` is the synthesized branding conclusion slide. -/
inductive VisPath
  | black
  | remote (url : String) (dest : String)
  | slide
deriving DecidableEq, Repr

/-- One entry of the `visual_inputs` list of `render_video`:
`{'type': ..., 'path': ..., 'duration': ...}`. -/
structure VisualInput where
  kind : VisKind
  path : VisPath
  duration : ℚ
deriving DecidableEq, Repr

/-- One entry of the `segments` request field (`{image_url, start, end}`);
fields are optional because the source reads them with `dict.get`. -/
structure SegmentSpec where
  image_url : Option String
  start : Option ℚ
  endTime : Option ℚ
deriving DecidableEq, Repr

/-- The request data reaching the timeline-building part of `render_video`:
the probed voiceover duration, the three visual input modes, the resolved
optional audio/subtitle assets, and whether a branding spec is present. -/
structure RenderInput where
  voiceoverDuration : ℚ
  segments : List SegmentSpec
  animated_video_url : Option String
  animated_video_urls : List String
  musicPath : Option String
  subtitlesPath : Option String
  branding : Bool
deriving Repr

/-- Total duration of a visual-input list
(`sum(v['duration'] for v in visual_inputs)`). -/
def sumDur (vs : List VisualInput) : ℚ := (vs.map VisualInput.duration).sum

/-- `visual_inputs[-1]['duration'] += adjustment` (line 166): add `a` to the
duration of the last element. -/
def extendLast : List VisualInput → ℚ → List VisualInput
  | [], _ => []
  | [v], a => [{ v with duration := v.duration + a }]
  | v :: w :: rest, a => v :: extendLast (w :: rest) a

/-- Step 8 of `render_video` (lines 162-168): if the total visual duration is
strictly below the voiceover duration, extend the last visual by the
shortfall plus 0.5 seconds. -/
def reconcile (vd : ℚ) (vs : List VisualInput) : List VisualInput :=
  if sumDur vs < vd then extendLast vs (vd - sumDur vs + 1 / 2) else vs

/-- The black fallback segment with a given duration. -/
def blackSeg (d : ℚ) : VisualInput := { kind := .image, path := .black, duration := d }

/-- Lines 150-153: if no visuals were produced, use a single black screen
covering the whole voiceover. -/
def withFallback (vd : ℚ) (vs : List VisualInput) : List VisualInput :=
  if vs = [] then [blackSeg vd] else vs

/-- The conclusion slide segment appended when branding is present (line 159). -/
def conclusionSlide : VisualInput := { kind := .image, path := .slide, duration := 4 }

/-- Lines 155-160: append the 4-second conclusion slide when a branding spec
is present. -/
def withBranding (branding : Bool) (vs : List VisualInput) : List VisualInput :=
  if branding then vs ++ [conclusionSlide] else vs

/-- Processing of one element of `animated_video_urls` (lines 113-127):
strip the `turbo:` marker, classify image vs video from its presence,
download (black image of the same equal-share duration on failure). -/
def clipVisual (fetch : String → Bool) (vd : ℚ) (n : Nat) (i : Nat) (url : String) :
    VisualInput :=
  let cleanUrl := stripTurbo url
  let isTurbo := hasTurbo url
  let suffix := if isTurbo then ".png" else ".mp4"
  let clipDur := vd / (n : ℚ)
  if fetch cleanUrl then
    { kind := if isTurbo || suffix == ".png" then .image else .video,
      path := .remote cleanUrl ("visual_" ++ natRepr i ++ suffix),
      duration := clipDur }
  else
    { kind := .image, path := .black, duration := clipDur }

/-- Processing of one element of `segments` (lines 140-148): download the
image and use the `end - start` window floored at 0.1 s; on a missing URL or
failed download, a black image of fixed duration 1.0 s. -/
def segVisual (fetch : String → Bool) (i : Nat) (seg : SegmentSpec) : VisualInput :=
  match seg.image_url with
  | some u =>
    if fetch u then
      { kind := .image,
        path := .remote u ("image_" ++ natRepr i ++ ".png"),
        duration := max ((seg.endTime.getD 1) - (seg.start.getD 0)) (1 / 10) }
    else { kind := .image, path := .black, duration := 1 }
  | none => { kind := .image, path := .black, duration := 1 }

/-- Step 6 of `render_video` (lines 107-148): the three mutually exclusive
visual input modes, in the priority order of the source. -/
def buildVisuals (fetch : String → Bool) (inp : RenderInput) : List VisualInput :=
  if inp.animated_video_urls.length > 0 then
    inp.animated_video_urls.enum.map fun p =>
      clipVisual fetch inp.voiceoverDuration inp.animated_video_urls.length p.1 p.2
  else
    match inp.animated_video_url with
    | some u =>
      if fetch u then
        [{ kind := .video, path := .remote u "source_video.mp4",
           duration := inp.voiceoverDuration }]
      else [blackSeg inp.voiceoverDuration]
    | none => inp.segments.enum.map fun p => segVisual fetch p.1 p.2

/-- Steps 6-8 of `render_video`: visuals, fallback, branding slide,
reconciliation against the voiceover duration. -/
def buildTimeline (fetch : String → Bool) (inp : RenderInput) : List VisualInput :=
  reconcile inp.voiceoverDuration
    (withBranding inp.branding (withFallback inp.voiceoverDuration (buildVisuals fetch inp)))

theorem sumDur_nil : sumDur [] = 0 := rfl

theorem sumDur_cons (v : VisualInput) (vs : List VisualInput) :
    sumDur (v :: vs) = v.duration + sumDur vs := by
  simp [sumDur]

theorem sumDur_append (vs ws : List VisualInput) :
    sumDur (vs ++ ws) = sumDur vs + sumDur ws := by
  simp [sumDur]

theorem extendLast_eq (vs : List VisualInput) (a : ℚ) (h : vs ≠ []) :
    extendLast vs a =
      vs.dropLast ++
        [{ vs.getLast h with duration := (vs.getLast h).duration + a }] := by
  induction vs with
  | nil => exact absurd rfl h
  | cons v rest ih =>
    cases rest with
    | nil => simp [extendLast]
    | cons w rest2 =>
      have hne : w :: rest2 ≠ [] := by simp
      simp only [extendLast, ih hne, List.dropLast_cons₂, List.getLast_cons hne,
        List.cons_append]

theorem extendLast_length (vs : List VisualInput) (a : ℚ) :
    (extendLast vs a).length = vs.length := by
  cases hvs : vs with
  | nil => rfl
  | cons v rest =>
    rw [extendLast_eq (v :: rest) a (by simp)]
    simp

theorem sumDur_extendLast (vs : List VisualInput) (a : ℚ) (h : vs ≠ []) :
    sumDur (extendLast vs a) = sumDur vs + a := by
  rw [extendLast_eq vs a h, sumDur_append]
  conv_rhs => rw [← List.dropLast_append_getLast h, sumDur_append]
  simp [sumDur]
  ring

theorem extendLast_le (vs : List VisualInput) (a : ℚ) (ha : 0 ≤ a) :
    List.Forall₂ (fun x y => x.duration ≤ y.duration) vs (extendLast vs a) := by
  induction vs with
  | nil => exact List.Forall₂.nil
  | cons v rest ih =>
    cases rest with
    | nil =>
      refine List.Forall₂.cons ?_ List.Forall₂.nil
      simp
      linarith
    | cons w rest2 => exact List.Forall₂.cons le_rfl ih

theorem reconcile_length (vd : ℚ) (vs : List VisualInput) :
    (reconcile vd vs).length = vs.length := by
  unfold reconcile
  split
  · exact extendLast_length vs _
  · rfl

theorem reconcile_forall₂ (vd : ℚ) (vs : List VisualInput) :
    List.Forall₂ (fun x y => x.duration ≤ y.duration) vs (reconcile vd vs) := by
  unfold reconcile
  split
  · apply extendLast_le
    linarith
  · rw [List.forall₂_same]
    intro x _
    exact le_rfl

theorem reconcile_sum_ge (vd : ℚ) (vs : List VisualInput) (h : vs ≠ []) :
    vd ≤ sumDur (reconcile vd vs) := by
  unfold reconcile
  split
  · rw [sumDur_extendLast vs _ h]
    linarith
  · linarith [not_lt.mp (by assumption : ¬ sumDur vs < vd)]

theorem withFallback_ne_nil (vd : ℚ) (vs : List VisualInput) :
    withFallback vd vs ≠ [] := by
  unfold withFallback
  split
  · simp
  · assumption

theorem withBranding_ne_nil (b : Bool) (vs : List VisualInput) (h : vs ≠ []) :
    withBranding b vs ≠ [] := by
  cases b <;> simp [withBranding, h]

theorem reconcile_ne_nil (vd : ℚ) (vs : List VisualInput) (h : vs ≠ []) :
    reconcile vd vs ≠ [] := by
  have hl := reconcile_length vd vs
  intro hc
  rw [hc] at hl
  exact h (List.eq_nil_of_length_eq_zero hl.symm)

theorem buildTimeline_ne_nil (fetch : String → Bool) (inp : RenderInput) :
    buildTimeline fetch inp ≠ [] := by
  unfold buildTimeline
  exact reconcile_ne_nil _ _
    (withBranding_ne_nil _ _ (withFallback_ne_nil _ _))

/-- C1: after the reconciliation step the total of all segment durations in
the built timeline is at least the probed voiceover duration, and
reconciliation keeps the list length (drops no segment) and never decreases
any individual segment's duration. -/
theorem claim_C1_reconciliation_invariant :
    ∀ (fetch : String → Bool) (inp : RenderInput),
      inp.voiceoverDuration ≤ sumDur (buildTimeline fetch inp) ∧
      ∀ (vd : ℚ) (vs : List VisualInput),
        (reconcile vd vs).length = vs.length ∧
        List.Forall₂ (fun x y => x.duration ≤ y.duration) vs (reconcile vd vs) := by
  intro fetch inp
  refine ⟨?_, fun vd vs => ⟨reconcile_length vd vs, reconcile_forall₂ vd vs⟩⟩
  unfold buildTimeline
  exact reconcile_sum_ge _ _ (withBranding_ne_nil _ _ (withFallback_ne_nil _ _))

/-- C2: when the raw total of segment durations is strictly below the
voiceover duration, reconciliation leaves all segments but the last
unchanged and adds exactly `voiceoverDuration - rawTotal + 0.5` to the last
segment's duration. -/
theorem claim_C2_reconcile_adds_shortfall_plus_margin :
    ∀ (vd : ℚ) (vs : List VisualInput), sumDur vs < vd →
      (reconcile vd vs).dropLast = vs.dropLast ∧
      ∀ v, vs.getLast? = some v →
        (reconcile vd vs).getLast? =
          some { v with duration := v.duration + (vd - sumDur vs + 1 / 2) } := by
  intro vd vs hlt
  cases vs with
  | nil =>
    constructor
    · simp [reconcile, extendLast]
    · intro v hv
      simp at hv
  | cons v0 rest =>
    have hne : v0 :: rest ≠ [] := by simp
    constructor
    · unfold reconcile
      rw [if_pos hlt, extendLast_eq _ _ hne, List.dropLast_concat]
    · intro v hv
      unfold reconcile
      rw [if_pos hlt, extendLast_eq _ _ hne, List.getLast?_concat]
      rw [List.getLast?_eq_getLast _ hne] at hv
      injection hv with hv2
      rw [hv2]

theorem claim_C2_witness :
    sumDur [blackSeg 12, blackSeg 8] < 30 ∧
    (reconcile 30 [blackSeg 12, blackSeg 8]).dropLast = [blackSeg 12] ∧
    (reconcile 30 [blackSeg 12, blackSeg 8]).getLast? = some (blackSeg (8 + 21 / 2)) := by
  have h := claim_C2_reconcile_adds_shortfall_plus_margin 30 [blackSeg 12, blackSeg 8]
    (by norm_num [sumDur, blackSeg])
  refine ⟨by norm_num [sumDur, blackSeg], h.1, ?_⟩
  have h2 := h.2 (blackSeg 8) rfl
  rw [h2]
  simp [blackSeg, sumDur]
  norm_num

theorem buildVisuals_no_sources (fetch : String → Bool) (inp : RenderInput)
    (h1 : inp.animated_video_urls = []) (h2 : inp.animated_video_url = none)
    (h3 : inp.segments = []) : buildVisuals fetch inp = [] := by
  unfold buildVisuals
  rw [h1, h2, h3]
  simp

/-- C3: when no visual source is present (no animated clip URL list, no
single clip URL, no image segments) the builder yields exactly one black
fallback segment spanning the full voiceover duration, and the final
timeline is never empty for any input. -/
theorem claim_C3_fallback_black_segment :
    ∀ (fetch : String → Bool) (inp : RenderInput),
      buildTimeline fetch inp ≠ [] ∧
      (inp.animated_video_urls = [] → inp.animated_video_url = none →
        inp.segments = [] →
        withFallback inp.voiceoverDuration (buildVisuals fetch inp) =
          [blackSeg inp.voiceoverDuration]) := by
  intro fetch inp
  refine ⟨buildTimeline_ne_nil fetch inp, fun h1 h2 h3 => ?_⟩
  rw [buildVisuals_no_sources fetch inp h1 h2 h3]
  rfl

theorem claim_C3_witness :
    buildTimeline (fun _ => false)
      { voiceoverDuration := 30, segments := [], animated_video_url := none,
        animated_video_urls := [], musicPath := none, subtitlesPath := none,
        branding := false } ≠ [] ∧
    withFallback 30
      (buildVisuals (fun _ => false)
        { voiceoverDuration := 30, segments := [], animated_video_url := none,
          animated_video_urls := [], musicPath := none, subtitlesPath := none,
          branding := false }) = [blackSeg 30] :=
  ⟨(claim_C3_fallback_black_segment (fun _ => false) _).1,
   (claim_C3_fallback_black_segment (fun _ => false) _).2 rfl rfl rfl⟩

/-- C6: when a branding spec is present, exactly one synthesized slide
segment whose fixed duration (4 s) lies between 4 and 5 seconds is appended
after all primary content segments; when branding is absent nothing is
appended. -/
theorem claim_C6_branding_slide :
    ∀ (fetch : String → Bool) (inp : RenderInput),
      (inp.branding = true →
        withBranding inp.branding
            (withFallback inp.voiceoverDuration (buildVisuals fetch inp)) =
          withFallback inp.voiceoverDuration (buildVisuals fetch inp) ++
            [conclusionSlide] ∧
        (4 : ℚ) ≤ conclusionSlide.duration ∧ conclusionSlide.duration ≤ 5) ∧
      (inp.branding = false →
        withBranding inp.branding
            (withFallback inp.voiceoverDuration (buildVisuals fetch inp)) =
          withFallback inp.voiceoverDuration (buildVisuals fetch inp)) := by
  intro fetch inp
  constructor
  · intro hb
    rw [hb]
    refine ⟨rfl, by norm_num [conclusionSlide], by norm_num [conclusionSlide]⟩
  · intro hb
    rw [hb]
    rfl

theorem claim_C6_witness :
    withBranding true (withFallback 30 (buildVisuals (fun _ => false)
      { voiceoverDuration := 30, segments := [], animated_video_url := none,
        animated_video_urls := [], musicPath := none, subtitlesPath := none,
        branding := true })) =
      withFallback 30 (buildVisuals (fun _ => false)
        { voiceoverDuration := 30, segments := [], animated_video_url := none,
          animated_video_urls := [], musicPath := none, subtitlesPath := none,
          branding := true }) ++ [conclusionSlide] ∧
    (4 : ℚ) ≤ conclusionSlide.duration ∧ conclusionSlide.duration ≤ 5 :=
  (claim_C6_branding_slide (fun _ => false)
    { voiceoverDuration := 30, segments := [], animated_video_url := none,
      animated_video_urls := [], musicPath := none, subtitlesPath := none,
      branding := true }).1 rfl

/-- C7 counterexample: in tolerant mode a failed image download for the entry
`{start 0, end 5}` yields a black placeholder of fixed duration 1.0 s, not
the 5 s window the claim asserts. -/
theorem claim_C7_counterexample :
    buildVisuals (fun _ => false)
      { voiceoverDuration := 30,
        segments := [{ image_url := some "http://img", start := some 0, endTime := some 5 }],
        animated_video_url := none, animated_video_urls := [], musicPath := none,
        subtitlesPath := none, branding := false } =
      [{ kind := .image, path := .black, duration := 1 }] ∧
    (1 : ℚ) ≠ max ((5 : ℚ) - 0) (1 / 10) := by
  constructor
  · rfl
  · norm_num

/-- C7 (amended): in tolerant mode a failed image download for a segment
entry is replaced, at the same position, by a black placeholder of fixed
duration 1.0 s (not the entry's `end - start` window); no entry is skipped
or reordered. -/
theorem claim_C7_black_placeholder_position :
    ∀ (fetch : String → Bool) (inp : RenderInput),
      inp.animated_video_urls = [] → inp.animated_video_url = none →
      (buildVisuals fetch inp).length = inp.segments.length ∧
      ∀ (i : Nat) (seg : SegmentSpec), inp.segments[i]? = some seg →
        (buildVisuals fetch inp)[i]? = some (segVisual fetch i seg) ∧
        ((∀ u, seg.image_url = some u → fetch u = false) →
          segVisual fetch i seg = { kind := .image, path := .black, duration := 1 }) := by
  intro fetch inp h1 h2
  have hb : buildVisuals fetch inp =
      inp.segments.enum.map fun p => segVisual fetch p.1 p.2 := by
    unfold buildVisuals
    rw [h1, h2]
    simp
  constructor
  · rw [hb]
    simp
  · intro i seg hseg
    constructor
    · rw [hb, List.getElem?_map, List.getElem?_enum, hseg]
      rfl
    · intro hfail
      unfold segVisual
      cases hu : seg.image_url with
      | none => rfl
      | some u =>
        simp [hfail u hu]

theorem claim_C7_witness :
    (buildVisuals (fun _ => false)
      { voiceoverDuration := 30,
        segments := [{ image_url := some "u", start := some 0, endTime := some 5 }],
        animated_video_url := none, animated_video_urls := [], musicPath := none,
        subtitlesPath := none, branding := false }).length = 1 ∧
    (buildVisuals (fun _ => false)
      { voiceoverDuration := 30,
        segments := [{ image_url := some "u", start := some 0, endTime := some 5 }],
        animated_video_url := none, animated_video_urls := [], musicPath := none,
        subtitlesPath := none, branding := false })[0]? =
      some (segVisual (fun _ => false) 0
        { image_url := some "u", start := some 0, endTime := some 5 }) ∧
    segVisual (fun _ => false) 0
        { image_url := some "u", start := some 0, endTime := some 5 } =
      { kind := .image, path := .black, duration := 1 } := by
  have h := claim_C7_black_placeholder_position (fun _ => false)
    { voiceoverDuration := 30,
      segments := [{ image_url := some "u", start := some 0, endTime := some 5 }],
      animated_video_url := none, animated_video_urls := [], musicPath := none,
      subtitlesPath := none, branding := false } rfl rfl
  have h2 := h.2 0 { image_url := some "u", start := some 0, endTime := some 5 } rfl
  exact ⟨h.1, h2.1, h2.2 (fun u hu => rfl)⟩

theorem clipVisual_duration (fetch : String → Bool) (vd : ℚ) (n i : Nat) (url : String) :
    (clipVisual fetch vd n i url).duration = vd / (n : ℚ) := by
  simp only [clipVisual]
  split <;> rfl

theorem segVisual_duration_pos (fetch : String → Bool) (i : Nat) (seg : SegmentSpec) :
    0 < (segVisual fetch i seg).duration := by
  cases hu : seg.image_url with
  | none => simp [segVisual, hu]
  | some u =>
    simp only [segVisual, hu]
    split
    · exact lt_max_of_lt_right (by norm_num)
    · norm_num

theorem buildVisuals_pos (fetch : String → Bool) (inp : RenderInput)
    (hvd : 0 < inp.voiceoverDuration) :
    ∀ s ∈ buildVisuals fetch inp, 0 < s.duration := by
  intro s hs
  unfold buildVisuals at hs
  by_cases hn : inp.animated_video_urls.length > 0
  · rw [if_pos hn, List.mem_map] at hs
    obtain ⟨p, _, hp⟩ := hs
    rw [← hp, clipVisual_duration]
    exact div_pos hvd (by exact_mod_cast hn)
  · rw [if_neg hn] at hs
    cases hurl : inp.animated_video_url with
    | some u =>
      rw [hurl] at hs
      by_cases hf : fetch u = true
      · simp [hf] at hs
        rw [hs]
        exact hvd
      · simp [hf] at hs
        rw [hs]
        simpa [blackSeg]
    | none =>
      rw [hurl, List.mem_map] at hs
      obtain ⟨p, _, hp⟩ := hs
      rw [← hp]
      exact segVisual_duration_pos fetch p.1 p.2

theorem mem_withFallback (vd : ℚ) (vs : List VisualInput) (s : VisualInput)
    (hs : s ∈ withFallback vd vs) : s = blackSeg vd ∨ s ∈ vs := by
  unfold withFallback at hs
  split at hs
  · simp at hs
    exact Or.inl hs
  · exact Or.inr hs

theorem mem_withBranding (b : Bool) (vs : List VisualInput) (s : VisualInput)
    (hs : s ∈ withBranding b vs) : s ∈ vs ∨ s = conclusionSlide := by
  unfold withBranding at hs
  split at hs
  · rw [List.mem_append] at hs
    cases hs with
    | inl h => exact Or.inl h
    | inr h => simp at h; exact Or.inr h
  · exact Or.inl hs

theorem forall₂_mem_right {α β : Type} {r : α → β → Prop} {as : List α} {bs : List β}
    (h : List.Forall₂ r as bs) {b : β} (hb : b ∈ bs) : ∃ a ∈ as, r a b := by
  induction h with
  | nil => simp at hb
  | cons hr _ ih =>
    rw [List.mem_cons] at hb
    cases hb with
    | inl hb2 => exact ⟨_, List.mem_cons_self _ _, hb2 ▸ hr⟩
    | inr hb2 =>
      obtain ⟨a, ha, har⟩ := ih hb2
      exact ⟨a, List.mem_cons_of_mem _ ha, har⟩

/-- C8: (i) for positive voiceover duration every segment of the built
timeline has strictly positive duration; (ii) a successfully downloaded
image segment's duration is exactly `max(end - start, 0.1)`, so an entry
with `end <= start` receives the 0.1 s floor instead of aborting the job. -/
theorem claim_C8_duration_positive_floor :
    ∀ (fetch : String → Bool) (inp : RenderInput) (i : Nat) (seg : SegmentSpec)
      (u : String),
      (0 < inp.voiceoverDuration → ∀ s ∈ buildTimeline fetch inp, 0 < s.duration) ∧
      (seg.image_url = some u → fetch u = true →
        (segVisual fetch i seg).duration =
          max (seg.endTime.getD 1 - seg.start.getD 0) (1 / 10) ∧
        (seg.endTime.getD 1 ≤ seg.start.getD 0 →
          (segVisual fetch i seg).duration = 1 / 10)) := by
  intro fetch inp i seg u
  constructor
  · intro hvd s hs
    unfold buildTimeline at hs
    have h2 := forall₂_mem_right (reconcile_forall₂ inp.voiceoverDuration _) hs
    obtain ⟨a, ha, hle⟩ := h2
    have ha2 := mem_withBranding _ _ _ ha
    have hapos : 0 < a.duration := by
      cases ha2 with
      | inl h3 =>
        cases mem_withFallback _ _ _ h3 with
        | inl h4 => rw [h4]; simpa [blackSeg]
        | inr h4 => exact buildVisuals_pos fetch inp hvd a h4
      | inr h3 => rw [h3]; norm_num [conclusionSlide]
    exact lt_of_lt_of_le hapos hle
  · intro hu hf
    have hd : (segVisual fetch i seg).duration =
        max (seg.endTime.getD 1 - seg.start.getD 0) (1 / 10) := by
      unfold segVisual
      rw [hu]
      simp [hf]
    refine ⟨hd, fun hle => ?_⟩
    rw [hd, max_eq_right]
    have : seg.endTime.getD 1 - seg.start.getD 0 ≤ 0 := by linarith
    linarith [this]

theorem claim_C8_witness :
    (segVisual (fun _ => true) 0
        { image_url := some "u", start := some 5, endTime := some 3 }).duration =
      max ((3 : ℚ) - 5) (1 / 10) ∧
    (segVisual (fun _ => true) 0
        { image_url := some "u", start := some 5, endTime := some 3 }).duration =
      1 / 10 := by
  have h := (claim_C8_duration_positive_floor (fun _ => true)
    { voiceoverDuration := 30, segments := [], animated_video_url := none,
      animated_video_urls := [], musicPath := none, subtitlesPath := none,
      branding := false } 0
    { image_url := some "u", start := some 5, endTime := some 3 } "u").2 rfl rfl
  refine ⟨h.1, h.2 (by norm_num)⟩

/-- C10: in the multiple-clip mode each element of `animated_video_urls`
becomes the timeline entry `clipVisual` at its own index; every such entry
gets the equal share `voiceoverDuration / n` of the voiceover; and when the
download succeeds, the entry is an Image exactly when `turbo:` occurs in the
URL (otherwise a Video) and the URL fetched is the original with every
`turbo:` occurrence removed. -/
theorem claim_C10_turbo_classification :
    ∀ (fetch : String → Bool) (inp : RenderInput) (i : Nat) (url : String),
      inp.animated_video_urls[i]? = some url →
      (buildVisuals fetch inp)[i]? =
        some (clipVisual fetch inp.voiceoverDuration inp.animated_video_urls.length
          i url) ∧
      (clipVisual fetch inp.voiceoverDuration inp.animated_video_urls.length
          i url).duration =
        inp.voiceoverDuration / (inp.animated_video_urls.length : ℚ) ∧
      (fetch (stripTurbo url) = true →
        ((clipVisual fetch inp.voiceoverDuration inp.animated_video_urls.length
            i url).kind = .image ↔ hasTurbo url = true) ∧
        (clipVisual fetch inp.voiceoverDuration inp.animated_video_urls.length
            i url).path =
          .remote (stripTurbo url)
            ("visual_" ++ natRepr i ++ (if hasTurbo url then ".png" else ".mp4"))) := by
  intro fetch inp i url hget
  have hn : inp.animated_video_urls.length > 0 := by
    cases hl : inp.animated_video_urls with
    | nil => rw [hl] at hget; simp at hget
    | cons a as => simp [hl]
  refine ⟨?_, clipVisual_duration _ _ _ _ _, ?_⟩
  · unfold buildVisuals
    rw [if_pos hn, List.getElem?_map, List.getElem?_enum, hget]
    rfl
  · intro hf
    simp only [clipVisual, hf, if_true]
    cases ht : hasTurbo url with
    | true => simp [ht]
    | false => simp [ht]

theorem claim_C10_witness :
    (buildVisuals (fun _ => true)
      { voiceoverDuration := 30, segments := [], animated_video_url := none,
        animated_video_urls := ["turbo:http://a.png", "http://b.mp4"],
        musicPath := none, subtitlesPath := none, branding := false })[0]? =
      some (clipVisual (fun _ => true) 30 2 0 "turbo:http://a.png") ∧
    (clipVisual (fun _ => true) 30 2 0 "turbo:http://a.png").duration = 30 / 2 ∧
    ((clipVisual (fun _ => true) 30 2 0 "turbo:http://a.png").kind = .image ↔
      hasTurbo "turbo:http://a.png" = true) ∧
    (clipVisual (fun _ => true) 30 2 0 "turbo:http://a.png").path =
      .remote (stripTurbo "turbo:http://a.png")
        ("visual_" ++ natRepr 0 ++
          (if hasTurbo "turbo:http://a.png" then ".png" else ".mp4")) := by
  have h := claim_C10_turbo_classification (fun _ => true)
    { voiceoverDuration := 30, segments := [], animated_video_url := none,
      animated_video_urls := ["turbo:http://a.png", "http://b.mp4"],
      musicPath := none, subtitlesPath := none, branding := false } 0
    "turbo:http://a.png" rfl
  exact ⟨h.1, h.2.1, (h.2.2 rfl).1, (h.2.2 rfl).2⟩

/-- Python `int()` truncation toward zero on a rational. -/
def pyInt (q : ℚ) : ℤ := if 0 ≤ q then ⌊q⌋ else -⌊-q⌋

/-- Serialization of a duration value into the command string
(Python `str(float)`); only the serialized value's identity matters here. -/
def ratStr (q : ℚ) : String := toString q

/-- The per-job scratch directory (`/cache/render_{job_id}`); the job id is
irrelevant to the compiled command's structure. -/
def jobDir : String := "/cache/render_job"

/-- Local path string handed to the command builder for each visual. -/
def pathStr : VisPath → String
  | .black => jobDir ++ "/black.png"
  | .remote _ dest => jobDir ++ "/" ++ dest
  | .slide => jobDir ++ "/conclusion_slide.png"

/-- Index of the first visual input stream: 2 when music occupies input 1,
else 1 (lines 260-266). -/
def visualStartIdx (musicPath : Option String) : Nat :=
  if musicPath.isSome then 2 else 1

/-- Python `''.join` of a string list. -/
def joinAll : List String → String
  | [] => ""
  | s :: rest => s ++ joinAll rest

/-- Python `sep.join` of a string list. -/
def joinSep (sep : String) : List String → String
  | [] => ""
  | [s] => s
  | s :: t :: rest => s ++ sep ++ joinSep sep (t :: rest)

/-- Image-normalization filter text between the input tag and the frame
count (line 287-289). -/
def zoomStrA : String :=
  "scale=1280:2276:force_original_aspect_ratio=increase,crop=1280:2276,zoompan=z=\x27min(zoom+0.0015,1.5)\x27:d="

/-- Image-normalization filter text between the frame count and the output
tag (lines 289-290). -/
def zoomStrB : String :=
  ":x=\x27iw/2-(iw/zoom/2)\x27:y=\x27ih/2-(ih/zoom/2)\x27:s=1080x1920,setpts=PTS-STARTPTS,format=yuv420p["

/-- Video-normalization filter text (lines 294-297). -/
def vidNormStr : String :=
  "scale=1080:1920:force_original_aspect_ratio=decrease,pad=1080:1920:(ow-iw)/2:(oh-ih)/2,setsar=1,setpts=PTS-STARTPTS,format=yuv420p["

/-- Per-visual normalization filter (lines 277-299): Ken Burns zoompan for
images (frame count `max(int(duration*24), 1)`), scale/pad for videos. -/
def normFilterStr (inputIdx : Nat) (i : Nat) (vis : VisualInput) : String :=
  let inTag := "[" ++ natRepr inputIdx ++ ":v]"
  let outTag := "v" ++ natRepr i
  match vis.kind with
  | .image =>
    let numFrames := max (pyInt (vis.duration * 24)) 1
    inTag ++ zoomStrA ++ natRepr numFrames.toNat ++ zoomStrB ++ outTag ++ "]"
  | .video => inTag ++ vidNormStr ++ outTag ++ "]"

/-- The `[v0][v1]...` tags collected while normalizing (lines 276-281). -/
def normTags (visuals : List VisualInput) : List String :=
  visuals.enum.map fun p => "[v" ++ natRepr p.1 ++ "]"

/-- The concat stage (line 303). -/
def concatPartStr (visuals : List VisualInput) : String :=
  joinAll (normTags visuals) ++ "concat=n=" ++ natRepr visuals.length ++
    ":v=1:a=0[vconcat]"

/-- Style suffix of the subtitle burn-in stage (lines 309-310). -/
def subtitleStyle : String :=
  ":force_style=\x27FontName=Arial,FontSize=24,PrimaryColour=&H00FFFFFF,BackColour=&H80000000,BorderStyle=3,Outline=1,Shadow=0,MarginV=60\x27[vsub]"

/-- The subtitle burn-in stage, emitted only when a subtitle file is present
(lines 307-312). -/
def subParts : Option String → List String
  | some p => ["[vconcat]subtitles=" ++ p ++ subtitleStyle]
  | none => []

/-- The voiceover-only audio chain (line 324). -/
def voiceOnlyStr : String := "[0:a]aresample=44100,volume=2.0[aout]"

/-- The side-chain-compression (ducking) stage (line 319). -/
def sidechainStr : String :=
  "[bg][vo_sc]sidechaincompress=threshold=0.15:ratio=3:attack=50:release=600[bg_duck]"

/-- The two-input mix stage with `duration=first` (line 320). -/
def amixStr : String := "[vo_main][bg_duck]amix=inputs=2:duration=first[aout]"

/-- Audio stages (lines 314-325): ducked mix when music is present, the
voiceover-only chain otherwise. -/
def audioParts (musicPresent : Bool) : List String :=
  if musicPresent then
    ["[0:a]aresample=44100,volume=2.0,asplit=2[vo_sc][vo_main]",
     "[1:a]aresample=44100,volume=0.5[bg]",
     sidechainStr,
     amixStr]
  else [voiceOnlyStr]

/-- The `filter_parts` list accumulated by `build_ffmpeg_command`
(lines 253-325), in source order: per-visual normalization, concat,
optional subtitle burn-in, audio stages. -/
def filter_parts (musicPath subtitlesPath : Option String)
    (visuals : List VisualInput) : List String :=
  (visuals.enum.map fun p => normFilterStr (visualStartIdx musicPath + p.1) p.1 p.2)
    ++ [concatPartStr visuals]
    ++ subParts subtitlesPath
    ++ audioParts musicPath.isSome

/-- The final video stream tag (lines 304-312): `vsub` after subtitle
burn-in, else `vconcat`. -/
def videoTag (subtitlesPath : Option String) : String :=
  if subtitlesPath.isSome then "vsub" else "vconcat"

/-- Input binding for one visual (lines 267-271): looped `-t`-bounded image
input, or a plain video input. -/
def inputArgs (vis : VisualInput) : List String :=
  match vis.kind with
  | .image => ["-loop", "1", "-t", ratStr vis.duration, "-i", pathStr vis.path]
  | .video => ["-i", pathStr vis.path]

/-- `build_ffmpeg_command` (lines 242-345): input bindings, filter complex,
stream maps, the output `-t` clamp, and fixed encoding options.  The
`logo_path` parameter of the source function is never read by it and is
omitted here. -/
def build_ffmpeg_command (voiceoverPath : String)
    (musicPath subtitlesPath : Option String) (visuals : List VisualInput)
    (totalDuration : ℚ) (outputPath : String) : List String :=
  ["ffmpeg", "-y", "-hide_banner", "-loglevel", "info", "-i", voiceoverPath]
    ++ (match musicPath with
        | some m => ["-stream_loop", "-1", "-i", m]
        | none => [])
    ++ (visuals.map inputArgs).flatten
    ++ ["-filter_complex", joinSep ";" (filter_parts musicPath subtitlesPath visuals)]
    ++ ["-map", "[" ++ videoTag subtitlesPath ++ "]"]
    ++ ["-map", "[aout]"]
    ++ ["-t", ratStr totalDuration]
    ++ ["-c:v", "libx264", "-profile:v", "baseline", "-level", "3.0",
        "-preset", "veryfast", "-b:v", "2M",
        "-c:a", "aac", "-b:a", "128k", "-ar", "44100", "-ac", "2",
        "-pix_fmt", "yuv420p", "-movflags", "+faststart", "-f", "mp4"]
    ++ [outputPath]

/-- Steps 8-9 of `render_video` (lines 162-182): the compiled command for a
job, with `total_duration` the recomputed post-reconciliation sum. -/
def renderCmd (fetch : String → Bool) (inp : RenderInput) : List String :=
  build_ffmpeg_command (jobDir ++ "/voiceover.mp3") inp.musicPath inp.subtitlesPath
    (buildTimeline fetch inp) (sumDur (buildTimeline fetch inp))
    (jobDir ++ "/output.mp4")


theorem natReprAux_head (fuel : Nat) :
    ∀ (n : Nat) (acc : List Char), ∃ d t,
      natReprAux (fuel + 1) n acc = digitChar d :: t ∧ d < 10 := by
  induction fuel with
  | zero =>
    intro n acc
    simp only [natReprAux]
    split
    · exact ⟨n % 10, acc, rfl, Nat.mod_lt _ (by omega)⟩
    · exact ⟨n % 10, acc, rfl, Nat.mod_lt _ (by omega)⟩
  | succ fuel ih =>
    intro n acc
    simp only [natReprAux]
    split
    · exact ⟨n % 10, acc, rfl, Nat.mod_lt _ (by omega)⟩
    · exact ih (n / 10) _

theorem natRepr_data_head (n : Nat) :
    ∃ d t, d < 10 ∧ (natRepr n).data = digitChar d :: t := by
  obtain ⟨d, t, h, hd⟩ := natReprAux_head n n []
  exact ⟨d, t, hd, h⟩

theorem ne_of_data_getElem (k : Nat) {s t : String} {a b : Char}
    (hs : s.data[k]? = some a) (ht : t.data[k]? = some b) (hab : a ≠ b) :
    s ≠ t := by
  intro h
  rw [h, ht] at hs
  exact hab (Option.some.inj hs).symm

theorem digitChar_ne (d : Nat) (h : d < 10) :
    digitChar d ≠ 'b' ∧ digitChar d ≠ 'v' ∧ digitChar d ≠ 'o' := by
  interval_cases d <;> exact ⟨by decide, by decide, by decide⟩

theorem normFilterStr_getElem1 (inputIdx i : Nat) (vis : VisualInput) :
    ∃ d, d < 10 ∧ (normFilterStr inputIdx i vis).data[1]? = some (digitChar d) := by
  obtain ⟨d, t, hd, hnat⟩ := natRepr_data_head inputIdx
  refine ⟨d, hd, ?_⟩
  have hbr : ("[" : String).data = ['['] := rfl
  cases hk : vis.kind with
  | image =>
    simp only [normFilterStr, hk]
    simp [String.data_append, hnat, hbr]
  | video =>
    simp only [normFilterStr, hk]
    simp [String.data_append, hnat, hbr]

theorem normFilterStr_ne_sidechain (inputIdx i : Nat) (vis : VisualInput) :
    normFilterStr inputIdx i vis ≠ sidechainStr := by
  obtain ⟨d, hd, h1⟩ := normFilterStr_getElem1 inputIdx i vis
  exact ne_of_data_getElem 1 h1 rfl (digitChar_ne d hd).1

theorem normFilterStr_ne_amix (inputIdx i : Nat) (vis : VisualInput) :
    normFilterStr inputIdx i vis ≠ amixStr := by
  obtain ⟨d, hd, h1⟩ := normFilterStr_getElem1 inputIdx i vis
  exact ne_of_data_getElem 1 h1 rfl (digitChar_ne d hd).2.1

theorem concatPartStr_getElem (v : VisualInput) (vs : List VisualInput) :
    (concatPartStr (v :: vs)).data[1]? = some 'v' ∧
    (concatPartStr (v :: vs)).data[2]? = some '0' := by
  have h0 : (natRepr 0).data = ['0'] := rfl
  have hv : ("[v" : String).data = ['[', 'v'] := rfl
  constructor <;>
    simp [concatPartStr, normTags, List.enum_cons, joinAll, String.data_append, h0, hv]

theorem concatPartStr_ne_sidechain (visuals : List VisualInput) :
    concatPartStr visuals ≠ sidechainStr := by
  cases visuals with
  | nil => decide
  | cons v vs =>
    exact ne_of_data_getElem 1 (concatPartStr_getElem v vs).1 rfl (by decide)

theorem concatPartStr_ne_amix (visuals : List VisualInput) :
    concatPartStr visuals ≠ amixStr := by
  cases visuals with
  | nil => decide
  | cons v vs =>
    exact ne_of_data_getElem 2 (concatPartStr_getElem v vs).2 rfl (by decide)

theorem subPart_getElem (p : String) :
    ("[vconcat]subtitles=" ++ p ++ subtitleStyle).data[1]? = some 'v' ∧
    ("[vconcat]subtitles=" ++ p ++ subtitleStyle).data[2]? = some 'c' := by
  have hlit : ("[vconcat]subtitles=" : String).data =
      '[' :: 'v' :: 'c' :: ("oncat]subtitles=" : String).data := rfl
  constructor <;> simp [String.data_append, hlit]

theorem subPart_ne_sidechain (p : String) :
    "[vconcat]subtitles=" ++ p ++ subtitleStyle ≠ sidechainStr :=
  ne_of_data_getElem 1 (subPart_getElem p).1 rfl (by decide)

theorem subPart_ne_amix (p : String) :
    "[vconcat]subtitles=" ++ p ++ subtitleStyle ≠ amixStr :=
  ne_of_data_getElem 2 (subPart_getElem p).2 rfl (by decide)

theorem filter_parts_none_cases (subtitlesPath : Option String)
    (visuals : List VisualInput) (x : String)
    (hx : x ∈ filter_parts none subtitlesPath visuals) :
    (∃ idx i vis, x = normFilterStr idx i vis) ∨
    x = concatPartStr visuals ∨
    (∃ p, x = "[vconcat]subtitles=" ++ p ++ subtitleStyle) ∨
    x = voiceOnlyStr := by
  unfold filter_parts at hx
  rcases List.mem_append.mp hx with h1 | h2
  · rcases List.mem_append.mp h1 with h3 | h4
    · rcases List.mem_append.mp h3 with h5 | h6
      · rw [List.mem_map] at h5
        obtain ⟨p, _, hp⟩ := h5
        exact Or.inl ⟨_, _, _, hp.symm⟩
      · simp at h6
        exact Or.inr (Or.inl h6)
    · cases hsub : subtitlesPath with
      | none =>
        rw [hsub] at h4
        simp [subParts] at h4
      | some p =>
        rw [hsub] at h4
        simp [subParts] at h4
        exact Or.inr (Or.inr (Or.inl ⟨p, h4⟩))
  · simp [audioParts] at h2
    exact Or.inr (Or.inr (Or.inr h2))

/-- C4: the compiled filter graph contains the side-chain-compression stage
and the two-input `duration=first` mix stage exactly when a music asset is
present; with no music the audio chain is the single voiceover
resample-and-gain stage and neither ducking nor mix stage occurs anywhere in
the graph. -/
theorem claim_C4_ducking_iff_music :
    ∀ (musicPath subtitlesPath : Option String) (visuals : List VisualInput),
      (musicPath.isSome = true →
        sidechainStr ∈ filter_parts musicPath subtitlesPath visuals ∧
        amixStr ∈ filter_parts musicPath subtitlesPath visuals) ∧
      (musicPath = none →
        (∃ pre, filter_parts musicPath subtitlesPath visuals =
          pre ++ [voiceOnlyStr]) ∧
        sidechainStr ∉ filter_parts musicPath subtitlesPath visuals ∧
        amixStr ∉ filter_parts musicPath subtitlesPath visuals) := by
  intro musicPath subtitlesPath visuals
  constructor
  · intro hm
    constructor <;> simp [filter_parts, audioParts, hm]
  · intro hm
    subst hm
    refine ⟨⟨(visuals.enum.map fun p =>
        normFilterStr (visualStartIdx none + p.1) p.1 p.2) ++
        [concatPartStr visuals] ++ subParts subtitlesPath,
        by simp [filter_parts, audioParts, List.append_assoc]⟩, ?_, ?_⟩
    · intro hmem
      rcases filter_parts_none_cases subtitlesPath visuals sidechainStr hmem with
        ⟨idx, i, vis, h⟩ | h | ⟨p, h⟩ | h
      · exact normFilterStr_ne_sidechain idx i vis h.symm
      · exact concatPartStr_ne_sidechain visuals h.symm
      · exact subPart_ne_sidechain p h.symm
      · exact absurd h (by decide)
    · intro hmem
      rcases filter_parts_none_cases subtitlesPath visuals amixStr hmem with
        ⟨idx, i, vis, h⟩ | h | ⟨p, h⟩ | h
      · exact normFilterStr_ne_amix idx i vis h.symm
      · exact concatPartStr_ne_amix visuals h.symm
      · exact subPart_ne_amix p h.symm
      · exact absurd h (by decide)

theorem claim_C4_witness :
    (sidechainStr ∈ filter_parts (some "/cache/render_job/music.mp3") none [] ∧
     amixStr ∈ filter_parts (some "/cache/render_job/music.mp3") none []) ∧
    (∃ pre, filter_parts none none [] = pre ++ [voiceOnlyStr]) ∧
    sidechainStr ∉ filter_parts none none [] ∧
    amixStr ∉ filter_parts none none [] :=
  ⟨(claim_C4_ducking_iff_music (some "/cache/render_job/music.mp3") none []).1 rfl,
   (claim_C4_ducking_iff_music none none []).2 rfl⟩

/-- C5: every compiled invocation carries, after the filter graph and the
stream maps, the output-level option `-t` applied to exactly the
post-reconciliation sum of all timeline segment durations. -/
theorem claim_C5_output_duration_clamp :
    ∀ (fetch : String → Bool) (inp : RenderInput),
      ∃ pre post,
        renderCmd fetch inp =
          pre ++ ["-filter_complex",
            joinSep ";" (filter_parts inp.musicPath inp.subtitlesPath
              (buildTimeline fetch inp)),
            "-map", "[" ++ videoTag inp.subtitlesPath ++ "]", "-map", "[aout]",
            "-t", ratStr (sumDur (buildTimeline fetch inp))] ++ post := by
  intro fetch inp
  refine ⟨["ffmpeg", "-y", "-hide_banner", "-loglevel", "info", "-i",
      jobDir ++ "/voiceover.mp3"]
      ++ (match inp.musicPath with
          | some m => ["-stream_loop", "-1", "-i", m]
          | none => [])
      ++ ((buildTimeline fetch inp).map inputArgs).flatten,
    ["-c:v", "libx264", "-profile:v", "baseline", "-level", "3.0",
     "-preset", "veryfast", "-b:v", "2M",
     "-c:a", "aac", "-b:a", "128k", "-ar", "44100", "-ac", "2",
     "-pix_fmt", "yuv420p", "-movflags", "+faststart", "-f", "mp4",
     jobDir ++ "/output.mp4"], ?_⟩
  simp [renderCmd, build_ffmpeg_command, List.append_assoc]

theorem dropWhile_length_le (p : Char → Bool) :
    ∀ l : List Char, (l.dropWhile p).length ≤ l.length := by
  intro l
  induction l with
  | nil => simp
  | cons c cs ih =>
    rw [List.dropWhile_cons]
    split
    · exact le_trans ih (by simp)
    · simp

/-- Python `text.split()` on a character list: split on whitespace runs,
discarding empties (beam_ffmpeg_render.py line 281). -/
def splitWS : List Char → List (List Char)
  | [] => []
  | c :: cs =>
    if c.isWhitespace then splitWS cs
    else (c :: cs.takeWhile (fun x => !x.isWhitespace)) ::
      splitWS (cs.dropWhile (fun x => !x.isWhitespace))
termination_by s => s.length
decreasing_by
  · simp
  · have := dropWhile_length_le (fun x => !x.isWhitespace) cs
    simp
    omega

/-- Python `text.split()`. -/
def pySplit (s : String) : List String := (splitWS s.data).map String.mk

/-- Python `' '.join` (beam_ffmpeg_render.py lines 287, 301, 305). -/
def joinSp : List String → String := joinSep " "

/-- The word-accumulation loop of `wrap_text`
(beam_ffmpeg_render.py lines 282-305): `cur` is `current_line`, the
emitted lines are returned in order.  `meas` is the pixel-width measure
(`font.getlength`, or the `len * 15` fallback). -/
def wrapLoop (meas : String → ℚ) (M : ℚ) : List String → List String → List String
  | [], cur => if cur = [] then [] else [joinSp cur]
  | word :: rest, cur =>
    let lineStr := joinSp (cur ++ [word])
    if M < meas lineStr then
      if cur = [] then lineStr :: wrapLoop meas M rest []
      else joinSp cur :: wrapLoop meas M rest [word]
    else wrapLoop meas M rest (cur ++ [word])

/-- `wrap_text(text, font, max_width)` (beam_ffmpeg_render.py lines
274-307), with the font measure abstracted as `meas`. -/
def wrap_text (meas : String → ℚ) (M : ℚ) (text : String) : List String :=
  wrapLoop meas M (pySplit text) []

theorem splitWS_good : ∀ (s : List Char), ∀ w ∈ splitWS s,
    w ≠ [] ∧ ∀ c ∈ w, c.isWhitespace = false := by
  intro s
  induction s using splitWS.induct with
  | case1 => simp [splitWS]
  | case2 c cs hws ih => simpa [splitWS, hws] using ih
  | case3 c cs hws ih =>
    intro w hw
    rw [splitWS, if_neg hws] at hw
    rcases List.mem_cons.mp hw with h | h
    · subst h
      refine ⟨by simp, ?_⟩
      intro x hx
      rcases List.mem_cons.mp hx with h2 | h2
      · subst h2
        simpa using hws
      · have := List.mem_takeWhile_imp h2
        simpa using this
    · exact ih w h

theorem takeWhile_word_stop (p : Char → Bool) (w rest : List Char)
    (hw : ∀ a ∈ w, p a) (x : Char) (hx : p x = false) :
    (w ++ x :: rest).takeWhile p = w := by
  induction w with
  | nil => simp [List.takeWhile_cons, hx]
  | cons c cs ih =>
    have hc : p c = true := hw c (by simp)
    rw [List.cons_append, List.takeWhile_cons, hc]
    simp only [if_true]
    rw [ih (fun a ha => hw a (by simp [ha]))]

theorem dropWhile_word_stop (p : Char → Bool) (w rest : List Char)
    (hw : ∀ a ∈ w, p a) (x : Char) (hx : p x = false) :
    (w ++ x :: rest).dropWhile p = x :: rest := by
  induction w with
  | nil => simp [List.dropWhile_cons, hx]
  | cons c cs ih =>
    have hc : p c = true := hw c (by simp)
    rw [List.cons_append, List.dropWhile_cons, hc]
    simp only [if_true]
    exact ih (fun a ha => hw a (by simp [ha]))

theorem splitWS_single (w : List Char) (hne : w ≠ [])
    (hgood : ∀ c ∈ w, c.isWhitespace = false) : splitWS w = [w] := by
  cases w with
  | nil => exact absurd rfl hne
  | cons c cs =>
    have hc : c.isWhitespace = false := hgood c (by simp)
    rw [splitWS, if_neg (by simp [hc])]
    have hcs : ∀ a ∈ cs, (fun x => !x.isWhitespace) a = true := by
      intro a ha
      simp [hgood a (by simp [ha])]
    rw [List.takeWhile_eq_self_iff.mpr hcs, List.dropWhile_eq_nil_iff.mpr hcs]
    simp [splitWS]

theorem splitWS_word_append (w rest : List Char) (hne : w ≠ [])
    (hgood : ∀ c ∈ w, c.isWhitespace = false) :
    splitWS (w ++ ' ' :: rest) = w :: splitWS rest := by
  cases w with
  | nil => exact absurd rfl hne
  | cons c cs =>
    have hc : c.isWhitespace = false := hgood c (by simp)
    have hcs : ∀ a ∈ cs, (fun x => !x.isWhitespace) a = true := by
      intro a ha
      simp [hgood a (by simp [ha])]
    have hsp : (fun x => !x.isWhitespace) ' ' = false := by decide
    rw [List.cons_append, splitWS, if_neg (by simp [hc]),
      takeWhile_word_stop _ cs rest hcs ' ' hsp,
      dropWhile_word_stop _ cs rest hcs ' ' hsp]
    congr 1
    rw [splitWS, if_pos (by decide)]

theorem mk_data (s : String) : String.mk s.data = s := rfl

theorem joinSp_single (w : String) : joinSp [w] = w := rfl

theorem joinSp_cons₂ (w v : String) (rest : List String) :
    joinSp (w :: v :: rest) = w ++ " " ++ joinSp (v :: rest) := rfl

theorem joinSp_data_cons (w : String) (ws : List String) (h : ws ≠ []) :
    (joinSp (w :: ws)).data = w.data ++ ' ' :: (joinSp ws).data := by
  cases ws with
  | nil => exact absurd rfl h
  | cons v rest =>
    rw [joinSp_cons₂]
    simp [String.data_append]

theorem pySplit_joinSp (ws : List String)
    (h : ∀ w ∈ ws, w.data ≠ [] ∧ ∀ c ∈ w.data, c.isWhitespace = false) :
    pySplit (joinSp ws) = ws := by
  induction ws with
  | nil =>
    unfold pySplit
    rw [show (joinSp []).data = [] from rfl, splitWS]
    rfl
  | cons w rest ih =>
    cases hr : rest with
    | nil =>
      simp only [joinSp_single, pySplit]
      rw [splitWS_single w.data (h w (by simp)).1 (h w (by simp)).2]
      simp only [List.map_cons, List.map_nil, mk_data]
    | cons v rest2 =>
      rw [← hr]
      unfold pySplit
      rw [joinSp_data_cons w rest (by rw [hr]; simp),
        splitWS_word_append w.data (joinSp rest).data (h w (by simp)).1
          (h w (by simp)).2]
      simp only [List.map_cons, mk_data]
      have ihr : pySplit (joinSp rest) = rest :=
        ih (fun x hx => h x (by simp [hx]))
      unfold pySplit at ihr
      rw [ihr]

theorem joinSp_append (xs ys : List String) (hx : xs ≠ []) (hy : ys ≠ []) :
    joinSp (xs ++ ys) = joinSp xs ++ " " ++ joinSp ys := by
  induction xs with
  | nil => exact absurd rfl hx
  | cons x xs2 ih =>
    cases xs2 with
    | nil =>
      cases ys with
      | nil => exact absurd rfl hy
      | cons y ys2 => rw [List.singleton_append, joinSp_cons₂, joinSp_single]
    | cons x2 xs3 =>
      calc joinSp ((x :: x2 :: xs3) ++ ys)
          = x ++ " " ++ joinSp ((x2 :: xs3) ++ ys) := rfl
        _ = x ++ " " ++ (joinSp (x2 :: xs3) ++ " " ++ joinSp ys) := by
            rw [ih (by simp)]
        _ = joinSp (x :: x2 :: xs3) ++ " " ++ joinSp ys := by
            rw [joinSp_cons₂]
            simp [String.append_assoc]

theorem flatten_cons_ne_nil (c : List String) (rest : List (List String))
    (hc : c ≠ []) : (c :: rest).flatten ≠ [] := by
  intro hcon
  rw [List.flatten_cons] at hcon
  exact hc (List.append_eq_nil.mp hcon).1

theorem joinSp_map_flatten (chunks : List (List String))
    (h : ∀ c ∈ chunks, c ≠ []) :
    joinSp (chunks.map joinSp) = joinSp chunks.flatten := by
  induction chunks with
  | nil => rfl
  | cons c rest ih =>
    cases hr : rest with
    | nil => simp [joinSp_single]
    | cons c2 rest2 =>
      rw [← hr, List.map_cons, List.flatten_cons]
      have hc : c ≠ [] := h c (by simp)
      have hrest : ∀ x ∈ rest, x ≠ [] := fun x hx => h x (by simp [hx])
      have hflat : rest.flatten ≠ [] := by
        rw [hr]
        exact flatten_cons_ne_nil c2 rest2 (hrest c2 (by rw [hr]; simp))
      have hmapne : rest.map joinSp ≠ [] := by
        rw [hr]
        simp
      have happ := joinSp_append [joinSp c] (rest.map joinSp) (by simp) hmapne
      rw [List.singleton_append] at happ
      rw [happ, joinSp_single, ih hrest,
        joinSp_append c rest.flatten hc hflat]

theorem wrapLoop_chunks (meas : String → ℚ) (M : ℚ) :
    ∀ (words cur : List String),
      (cur = [] ∨ cur.length = 1 ∨ meas (joinSp cur) ≤ M) →
      ∃ chunks : List (List String),
        wrapLoop meas M words cur = chunks.map joinSp ∧
        chunks.flatten = cur ++ words ∧
        ∀ c ∈ chunks, c ≠ [] ∧ (c.length = 1 ∨ meas (joinSp c) ≤ M) := by
  intro words
  induction words with
  | nil =>
    intro cur hcur
    by_cases hc : cur = []
    · subst hc
      exact ⟨[], by simp [wrapLoop], by simp, by simp⟩
    · refine ⟨[cur], by simp [wrapLoop, hc], by simp, ?_⟩
      intro c hcmem
      rw [List.mem_singleton] at hcmem
      subst hcmem
      refine ⟨hc, ?_⟩
      rcases hcur with h | h
      · exact absurd h hc
      · exact h
  | cons word rest ih =>
    intro cur hcur
    by_cases hover : M < meas (joinSp (cur ++ [word]))
    · by_cases hc : cur = []
      · subst hc
        obtain ⟨chunks, h1, h2, h3⟩ := ih [] (Or.inl rfl)
        have hw : wrapLoop meas M (word :: rest) [] =
            joinSp ([] ++ [word]) :: wrapLoop meas M rest [] := by
          simp only [wrapLoop]
          rw [if_pos hover]
          simp
        refine ⟨[word] :: chunks, ?_, ?_, ?_⟩
        · rw [hw, h1]
          simp
        · simp [List.flatten_cons, h2]
        · intro c hc2
          rcases List.mem_cons.mp hc2 with h | h
          · subst h
            exact ⟨by simp, Or.inl rfl⟩
          · exact h3 c h
      · obtain ⟨chunks, h1, h2, h3⟩ := ih [word] (Or.inr (Or.inl rfl))
        have hw : wrapLoop meas M (word :: rest) cur =
            joinSp cur :: wrapLoop meas M rest [word] := by
          simp only [wrapLoop]
          rw [if_pos hover, if_neg hc]
        refine ⟨cur :: chunks, ?_, ?_, ?_⟩
        · rw [hw, h1]
          simp
        · simp [List.flatten_cons, h2]
        · intro c hc2
          rcases List.mem_cons.mp hc2 with h | h
          · subst h
            refine ⟨hc, ?_⟩
            rcases hcur with h4 | h4
            · exact absurd h4 hc
            · exact h4
          · exact h3 c h
    · obtain ⟨chunks, h1, h2, h3⟩ :=
        ih (cur ++ [word]) (Or.inr (Or.inr (not_lt.mp hover)))
      have hw : wrapLoop meas M (word :: rest) cur =
          wrapLoop meas M rest (cur ++ [word]) := by
        simp only [wrapLoop]
        rw [if_neg hover]
      refine ⟨chunks, hw ▸ h1, ?_, h3⟩
      rw [h2]
      simp

theorem wrapLoop_nobreak (meas : String → ℚ) (M : ℚ)
    (hmono : ∀ s t, meas s ≤ meas (s ++ t)) :
    ∀ (words cur : List String), cur ++ words ≠ [] →
      meas (joinSp (cur ++ words)) ≤ M →
      wrapLoop meas M words cur = [joinSp (cur ++ words)] := by
  intro words
  induction words with
  | nil =>
    intro cur hne hle
    rw [List.append_nil] at hne ⊢
    simp [wrapLoop, hne]
  | cons word rest ih =>
    intro cur hne hle
    have hprefix : meas (joinSp (cur ++ [word])) ≤ M := by
      cases hr : rest with
      | nil =>
        rw [hr] at hle
        exact hle
      | cons r rest2 =>
        have hjoin := joinSp_append (cur ++ [word]) rest (by simp) (by rw [hr]; simp)
        have heq : (cur ++ [word]) ++ rest = cur ++ word :: rest := by simp
        rw [heq] at hjoin
        calc meas (joinSp (cur ++ [word]))
            ≤ meas (joinSp (cur ++ [word]) ++ (" " ++ joinSp rest)) := hmono _ _
          _ = meas (joinSp (cur ++ word :: rest)) := by
              rw [← String.append_assoc, ← hjoin]
          _ ≤ M := hle
    have hw : wrapLoop meas M (word :: rest) cur =
        wrapLoop meas M rest (cur ++ [word]) := by
      simp only [wrapLoop]
      rw [if_neg (not_lt.mpr hprefix)]
    have heq : (cur ++ [word]) ++ rest = cur ++ word :: rest := by simp
    rw [hw, ih (cur ++ [word]) (by simp) (by rw [heq]; exact hle), heq]

theorem wrapLoop_singleton (meas : String → ℚ) (M : ℚ) (w : String) :
    wrapLoop meas M [w] [] = [w] := by
  simp only [wrapLoop]
  by_cases h : M < meas (joinSp ([] ++ [w]))
  · rw [if_pos h]
    simp [wrapLoop, joinSp_single]
  · rw [if_neg h]
    simp [wrapLoop, joinSp_single]

/-- C9: greedy word-wrap is idempotent for any width measure that is
monotone under appending (as pixel-width measures are): every produced line
re-wraps to exactly itself, and wrapping the space-rejoined output
reproduces the original line breaks. -/
theorem claim_C9_wrap_idempotent :
    ∀ (meas : String → ℚ) (M : ℚ) (text : String),
      (∀ s t : String, meas s ≤ meas (s ++ t)) →
      (∀ line ∈ wrap_text meas M text, wrap_text meas M line = [line]) ∧
      wrap_text meas M (joinSp (wrap_text meas M text)) =
        wrap_text meas M text := by
  intro meas M text hmono
  obtain ⟨chunks, h1, h2, h3⟩ := wrapLoop_chunks meas M (pySplit text) [] (Or.inl rfl)
  have hgoodwords : ∀ w ∈ pySplit text,
      w.data ≠ [] ∧ ∀ c ∈ w.data, c.isWhitespace = false := by
    intro w hw
    unfold pySplit at hw
    rw [List.mem_map] at hw
    obtain ⟨chunk, hchunk, hmk⟩ := hw
    have hg := splitWS_good text.data chunk hchunk
    rw [← hmk]
    exact hg
  have hchunkgood : ∀ c ∈ chunks, ∀ w ∈ c,
      w.data ≠ [] ∧ ∀ ch ∈ w.data, ch.isWhitespace = false := by
    intro c hc w hw
    apply hgoodwords
    have : chunks.flatten = pySplit text := by
      rw [h2]
      simp
    rw [← this]
    exact List.mem_flatten.mpr ⟨c, hc, hw⟩
  constructor
  · intro line hline
    rw [show wrap_text meas M text = chunks.map joinSp from h1] at hline
    rw [List.mem_map] at hline
    obtain ⟨ws, hws, hjoin⟩ := hline
    obtain ⟨hwsne, hwsprop⟩ := h3 ws hws
    have hsplit : pySplit line = ws := by
      rw [← hjoin]
      exact pySplit_joinSp ws (hchunkgood ws hws)
    unfold wrap_text
    rw [hsplit]
    rcases hwsprop with hlen | hle
    · obtain ⟨w, hw⟩ := List.length_eq_one.mp hlen
      subst hw
      rw [wrapLoop_singleton, ← hjoin, joinSp_single]
    · rw [wrapLoop_nobreak meas M hmono ws [] (by simpa using hwsne)
        (by simpa using hle), ← hjoin]
      simp
  · have hjoined : joinSp (wrapLoop meas M (pySplit text) []) =
        joinSp (pySplit text) := by
      rw [h1, joinSp_map_flatten chunks (fun c hc => (h3 c hc).1), h2]
      simp
    unfold wrap_text
    rw [hjoined, pySplit_joinSp (pySplit text) hgoodwords]

theorem claim_C9_witness :
    wrap_text (fun s => (s.length : ℚ) * 15) 900
        (joinSp (wrap_text (fun s => (s.length : ℚ) * 15) 900 "hello world")) =
      wrap_text (fun s => (s.length : ℚ) * 15) 900 "hello world" :=
  (claim_C9_wrap_idempotent (fun s => (s.length : ℚ) * 15) 900 "hello world"
    (fun s t => by
      have hlen : s.length ≤ (s ++ t).length := by
        rw [String.length_append]
        omega
      have hc : (s.length : ℚ) ≤ ((s ++ t).length : ℚ) := by exact_mod_cast hlen
      exact mul_le_mul_of_nonneg_right hc (by norm_num))).2
